import Mathlib

/-!
Verification of the redis-governor distributed rate-limiter backend.

This file gives a shallow embedding of the repository's core logic:

* key composition (`{p}:start`, `{p}:governor:hash`, `{p}:governor:value:{digest}`)
  from `state.rs` / `clock.rs`;
* the hex digest `key_hash` (`format!("{:x}", siphash)`) from `state.rs`;
* the Redis keyspace as a state (`RedisState`) with the commands the
  crate issues (`SET`, `HSET`, `HGET`, `GET`, `DEL`);
* the optimistic CAS loop of `measure_and_replace` (`state.rs`) and of the
  `start()` epoch election (`clock.rs`), with environment interference
  modelled as per-iteration batches of Redis writes inside the
  WATCH .. EXEC window (an `EXEC` commits iff no interfering write touched
  the watched key, exactly Redis's WATCH semantics);
* the pure `RedisInstant` arithmetic from `clock.rs`;
* `wipe` / `reset_start` from `lib.rs`, `state.rs` and `clock.rs`.

Machine integers (`u64`) are modelled as `Nat` with explicit reduction
modulo `2 ^ 64` where the Rust code performs u64 arithmetic.
-/

/-- Modulus of Rust's `u64` type. -/
def u64Size : Nat := 2 ^ 64

/-! ### Key composition

`clock.rs` builds `start_key = format!("{}:start", prefix)`;
`state.rs` builds `hash_key = format!("{}:governor:hash", prefix)` and
`value_key = format!("{}:governor:value:{}", prefix, digest)`. -/

/-- The `{p}:start` key holding the fleet epoch (`RedisClock::new`). -/
def startKeyOf (p : String) : String := p ++ ":start"

/-- The `{p}:governor:hash` key of the shared state hash (`RedisStateStore::new`). -/
def hashKeyOf (p : String) : String := p ++ ":governor:hash"

/-- The `{p}:governor:value:{d}` CAS sentinel key (`measure_and_replace`). -/
def valueKeyOf (p d : String) : String := p ++ ":governor:value:" ++ d

/-- The three key families minted under prefix `p` for digest `d`. -/
def governorKeys (p d : String) : List String :=
  [startKeyOf p, hashKeyOf p, valueKeyOf p d]

/-! ### The key digest

`RedisStateStore::key_hash` feeds the user key into a `SipHasher` and
formats the 64-bit finish as lowercase hex (`format!("{:x}", _)`).
The SipHash itself lives in the external `siphasher` crate, so the
finished 64-bit value is taken as a parameter; the formatting is embedded. -/

/-- Whether `c` is a lowercase hexadecimal digit, as produced by `{:x}`. -/
def isHexChar (c : Char) : Bool :=
  (decide ('0' ≤ c) && decide (c ≤ '9')) || (decide ('a' ≤ c) && decide (c ≤ 'f'))

/-- `RedisStateStore::key_hash`: lowercase hex rendering of the 64-bit
SipHash finish (the hash value `h` is the `hasher.finish()` result). -/
def key_hash (h : Nat) : String := String.mk (Nat.toDigits 16 (h % u64Size))

/-! ### The Redis keyspace -/

/-- The observable Redis keyspace: scalar string keys and hash keys.
Values are the 64-bit integers the crate stores. -/
structure RedisState where
  strings : String → Option Nat
  hashes : String → String → Option Nat

/-- The empty keyspace. -/
def RedisState.empty : RedisState :=
  ⟨fun _ => none, fun _ _ => none⟩

/-- Redis `GET k`. -/
def RedisState.get (s : RedisState) (k : String) : Option Nat := s.strings k

/-- Redis `HGET hk f`. -/
def RedisState.hget (s : RedisState) (hk f : String) : Option Nat := s.hashes hk f

/-- Redis `SET k v`. -/
def RedisState.set (s : RedisState) (k : String) (v : Nat) : RedisState :=
  { s with strings := fun k' => if k' = k then some v else s.strings k' }

/-- Redis `HSET hk f v`. -/
def RedisState.hset (s : RedisState) (hk f : String) (v : Nat) : RedisState :=
  { s with
    hashes := fun hk' f' =>
      if hk' = hk then (if f' = f then some v else s.hashes hk' f')
      else s.hashes hk' f' }

/-- Redis `DEL k`: removes the key whichever type it holds. -/
def RedisState.del (s : RedisState) (k : String) : RedisState :=
  { strings := fun k' => if k' = k then none else s.strings k',
    hashes := fun hk' f' => if hk' = k then none else s.hashes hk' f' }

/-- A single Redis write command, used to model interference by other
connections inside a WATCH window. -/
inductive RedisOp where
  | set (k : String) (v : Nat)
  | hset (hk f : String) (v : Nat)
  | del (k : String)
deriving DecidableEq

/-- Effect of one write command on the keyspace. -/
def RedisOp.apply (s : RedisState) : RedisOp → RedisState
  | .set k v => s.set k v
  | .hset hk f v => s.hset hk f v
  | .del k => s.del k

/-- Effect of a batch of write commands, in order. -/
def applyOps (s : RedisState) (ops : List RedisOp) : RedisState :=
  ops.foldl RedisOp.apply s

/-- Whether a write command touches key `k` (Redis `WATCH` aborts a
pending `EXEC` precisely when the watched key was touched). -/
def RedisOp.touches (k : String) : RedisOp → Bool
  | .set k' _ => k' = k
  | .hset hk' _ _ => hk' = k
  | .del k' => k' = k

/-! ### Instants and the remote clock (`clock.rs`)

`Nanos` is the `governor` crate's wrapper around a `u64` nanosecond
count; `RedisInstant` wraps a `Nanos`. The arithmetic used by the
repository is addition (u64), and saturating subtraction. -/

/-- The `governor::nanos::Nanos` u64 nanosecond count. -/
structure Nanos where
  val : Nat
deriving DecidableEq

/-- u64 addition of nanosecond counts (`Nanos + Nanos`). -/
def Nanos.add (a b : Nanos) : Nanos := ⟨(a.val + b.val) % u64Size⟩

/-- u64 saturating subtraction of nanosecond counts; `Nat` subtraction is
already truncated at zero. -/
def Nanos.saturating_sub (a b : Nanos) : Nanos := ⟨a.val - b.val⟩

/-- `RedisInstant`: an instant observed from Redis (`clock.rs`). -/
structure RedisInstant where
  nanos : Nanos
deriving DecidableEq

/-- `impl Add<Nanos> for RedisInstant` (`clock.rs`): shift by a duration. -/
def RedisInstant.add (a : RedisInstant) (d : Nanos) : RedisInstant :=
  ⟨a.nanos.add d⟩

/-- `Reference::duration_since` (`clock.rs`): saturating difference. -/
def RedisInstant.duration_since (a : RedisInstant) (earlier : RedisInstant) : Nanos :=
  a.nanos.saturating_sub earlier.nanos

/-- `Reference::saturating_sub` (`clock.rs`): floored shift backwards. -/
def RedisInstant.saturating_sub (a : RedisInstant) (d : Nanos) : RedisInstant :=
  ⟨a.nanos.saturating_sub d⟩

/-- `RedisClock::now_nanos`: converts the Redis `TIME` reply
`(secs, micros)` to nanoseconds using u64 arithmetic. -/
def now_nanos (secs micros : Nat) : Nat :=
  (secs % u64Size * 1000000000 + micros % u64Size * 1000) % u64Size

/-- `RedisClock::now`: wraps `now_nanos` of the `TIME` reply in an instant. -/
def RedisClock.now (secs micros : Nat) : RedisInstant :=
  ⟨⟨now_nanos secs micros⟩⟩

/-! ### Wipe and reset (`state.rs`, `clock.rs`, `lib.rs`) -/

/-- `RedisStateStore::wipe`: `DEL {p}:governor:hash` (`state.rs`). -/
def RedisStateStore.wipe (p : String) (s : RedisState) : RedisState :=
  s.del (hashKeyOf p)

/-- `RedisClock::reset_start` (`clock.rs` line 48): a no-op — the body of
the source function is empty. -/
def RedisClock.reset_start (_p : String) (s : RedisState) : RedisState := s

/-- `GovernorInstance::wipe` (`lib.rs`): `reset_start` then state `wipe`. -/
def GovernorInstance.wipe (p : String) (s : RedisState) : RedisState :=
  RedisStateStore.wipe p (RedisClock.reset_start p s)

/-! ### The `measure_and_replace` CAS loop (`state.rs`)

`redis_check_and_set!` (`lib.rs`) wraps the body in `loop { WATCH key; body }`.
The body of `measure_and_replace` reads the hash field, calls the decision
function, and on acceptance issues `MULTI / SET sentinel / HSET hash field /
EXEC`. The model takes, per loop iteration, the batch of writes that other
connections perform inside the WATCH window; the `EXEC` commits iff none of
them touched the watched sentinel. The loop is driven by `fuel` (the source
loop is unbounded; `none` models non-termination under unbounded conflict).
The result carries the decision outcome, the final keyspace, and the list of
writes the invocation itself committed. -/

def measure_and_replace_loop {E T : Type} (p d : String)
    (f : Option Nat → Except E (T × Nat)) :
    Nat → List (List RedisOp) → RedisState →
    Option (Except E T × RedisState × List RedisOp)
  | 0, _, _ => none
  | fuel + 1, sched, s =>
    let env := sched.headD []
    match f (s.hget (hashKeyOf p) d) with
    | .error e => some (.error e, applyOps s env, [])
    | .ok (result, new_data) =>
      let s' := applyOps s env
      if env.any (RedisOp.touches (valueKeyOf p d)) then
        measure_and_replace_loop p d f fuel sched.tail s'
      else
        some (.ok result,
          (s'.set (valueKeyOf p d) new_data).hset (hashKeyOf p) d new_data,
          [RedisOp.set (valueKeyOf p d) new_data,
           RedisOp.hset (hashKeyOf p) d new_data])

/-- `RedisStateStore::measure_and_replace`: digests the user key with
SipHash (`sip` is the external hasher's finish) and runs the CAS loop. -/
def measure_and_replace {K E T : Type} (p : String) (sip : K → Nat) (key : K)
    (f : Option Nat → Except E (T × Nat)) (fuel : Nat)
    (sched : List (List RedisOp)) (s : RedisState) :
    Option (Except E T × RedisState × List RedisOp) :=
  measure_and_replace_loop p (key_hash (sip key)) f fuel sched s

/-- Number of `HSET` writes to field `d` of hash `hk` in a list of writes
(the quantity a Redis-side monitor counts for conservation). -/
def countFieldWrites (hk d : String) (ws : List RedisOp) : Nat :=
  ws.countP fun op =>
    match op with
    | .hset hk' d' _ => hk' = hk ∧ d' = d
    | _ => False

/-- A single `measure_and_replace` call in a sequence: its decision
function, its fuel and its interference schedule. -/
structure CallSpec (E T : Type) where
  f : Option Nat → Except E (T × Nat)
  fuel : Nat
  sched : List (List RedisOp)

/-- Runs a sequence of `measure_and_replace` calls for the same digest `d`,
threading the keyspace and collecting outcomes and committed writes. -/
def runCalls {E T : Type} (p d : String) :
    List (CallSpec E T) → RedisState →
    Option (List (Except E T) × RedisState × List RedisOp)
  | [], s => some ([], s, [])
  | c :: cs, s =>
    match measure_and_replace_loop p d c.f c.fuel c.sched s with
    | none => none
    | some (out, s', ws) =>
      match runCalls p d cs s' with
      | none => none
      | some (outs, s'', ws') => some (out :: outs, s'', ws ++ ws')

/-! ### The `start()` epoch election loop (`clock.rs`)

Same CAS skeleton, watching `{p}:start`: read the key; if present return it
(no write); otherwise sample `now()` and issue `MULTI / SET start now /
GET start / EXEC`, retrying on a nil `EXEC`. Each iteration of the schedule
carries the interfering writes of the window and the `TIME` sample. -/

def start_loop (p : String) :
    Nat → List (List RedisOp × Nat) → RedisState →
    Option (Nat × RedisState × List RedisOp)
  | 0, _, _ => none
  | fuel + 1, sched, s =>
    match s.get (startKeyOf p) with
    | some v => some (v, s, [])
    | none =>
      let env := (sched.headD ([], 0)).1
      let nowv := (sched.headD ([], 0)).2
      let s' := applyOps s env
      if env.any (RedisOp.touches (startKeyOf p)) then
        start_loop p fuel sched.tail s'
      else
        some (nowv, s'.set (startKeyOf p) nowv,
          [RedisOp.set (startKeyOf p) nowv])

/-! ### Interleaved epoch election across participants

Each participant runs `start()`; the atomic events are its Redis commands.
`ready`: about to `WATCH`+`GET`. `inWindow intact`: it `GET`-ed `nil`
and holds a WATCH; `intact` records whether the watched key is untouched
since (a commit by anyone else clears it — Redis WATCH semantics).
`done r`: the call returned `r`. A commit (`EXEC` of `SET`+`GET`) succeeds
only from an intact window and may write any sampled `TIME` value. -/

inductive PState where
  | ready
  | inWindow (intact : Bool)
  | done (ret : Nat)
deriving DecidableEq

/-- Configuration of the election system: the `{p}:start` key's content
and every participant's control state. -/
structure ElectCfg where
  key : Option Nat
  procs : List PState
deriving DecidableEq

/-- Clearing of all outstanding WATCHes when a write to the key commits. -/
def invalidate (ps : List PState) : List PState :=
  ps.map fun st =>
    match st with
    | .inWindow _ => .inWindow false
    | st => st

/-- One atomic step of the election protocol. -/
inductive ElectStep : ElectCfg → ElectCfg → Prop where
  | readSome (c : ElectCfg) (i v : Nat) :
      c.procs.get? i = some .ready → c.key = some v →
      ElectStep c ⟨c.key, c.procs.set i (.done v)⟩
  | readNone (c : ElectCfg) (i : Nat) :
      c.procs.get? i = some .ready → c.key = none →
      ElectStep c ⟨none, c.procs.set i (.inWindow true)⟩
  | execCommit (c : ElectCfg) (i n : Nat) :
      c.procs.get? i = some (.inWindow true) →
      ElectStep c ⟨some n, (invalidate c.procs).set i (.done n)⟩
  | execAbort (c : ElectCfg) (i : Nat) :
      c.procs.get? i = some (.inWindow false) →
      ElectStep c ⟨c.key, c.procs.set i .ready⟩

/-- Reachability in the election protocol. -/
def ElectReach : ElectCfg → ElectCfg → Prop := Relation.ReflTransGen ElectStep

/-- Initial configuration on a fresh prefix: key absent, `n` participants
about to call `start()`. -/
def initCfg (n : Nat) : ElectCfg := ⟨none, List.replicate n .ready⟩

/-! ### Observable governor events on the keyspace (for coherence)

A committed `EXEC` of `measure_and_replace` writes the sentinel and the
hash field together; `wipe` deletes the hash. These are the only writes
the crate performs to the governor hash and sentinels. -/

inductive GovEvent where
  | commit (d : String) (v : Nat)
  | wipeEv
deriving DecidableEq

/-- Effect of one governor event under prefix `p` (the `commit` writes are
exactly the pipeline of a successful `EXEC` in `measure_and_replace`;
`wipeEv` is `GovernorInstance::wipe`). -/
def GovEvent.apply (p : String) (s : RedisState) : GovEvent → RedisState
  | .commit d v => (s.set (valueKeyOf p d) v).hset (hashKeyOf p) d v
  | .wipeEv => GovernorInstance.wipe p s

/-- Effect of a sequence of governor events, in order. -/
def applyEvents (p : String) (s : RedisState) (t : List GovEvent) : RedisState :=
  t.foldl (GovEvent.apply p) s

/-- Hash/sentinel coherence for digest `d` under prefix `p`. -/
def coherentAt (p d : String) (s : RedisState) : Prop :=
  s.get (valueKeyOf p d) = s.hget (hashKeyOf p) d

/-! ### String-level facts about key composition

The disjointness arguments rest on one observation: every minted key ends
in a colon followed by a colon-free word (`start`, `hash`, or a lowercase
hex digest), so the word after the last colon and right-cancellation of
appends characterize each key family. -/

theorem data_append (a b : String) : (a ++ b).data = a.data ++ b.data := by
  cases a; cases b; rfl

theorem data_inj {a b : String} (h : a.data = b.data) : a = b := by
  cases a; cases b; exact congrArg String.mk h

/-- The word after the last colon of a character list. -/
def afterLastColon (l : List Char) : List Char :=
  (l.reverse.takeWhile (fun c => c != ':')).reverse

theorem takeWhile_append_all {p : Char → Bool} (a b : List Char)
    (ha : ∀ c ∈ a, p c = true) :
    (a ++ b).takeWhile p = a ++ b.takeWhile p := by
  induction a with
  | nil => simp
  | cons x xs ih =>
    simp only [List.cons_append, List.takeWhile_cons]
    rw [ha x (by simp), ih (fun c hc => ha c (by simp [hc]))]
    simp

theorem afterLastColon_spec (xs w : List Char) (hw : ∀ c ∈ w, c ≠ ':') :
    afterLastColon (xs ++ ':' :: w) = w := by
  unfold afterLastColon
  rw [List.reverse_append]
  have h1 : (':' :: w).reverse = w.reverse ++ [':'] := by simp
  rw [h1, List.append_assoc]
  rw [takeWhile_append_all w.reverse ([':'] ++ xs.reverse)
    (fun c hc => by simpa using hw c (List.mem_reverse.mp hc))]
  simp [List.takeWhile_cons]

theorem startKey_data (p : String) :
    (startKeyOf p).data = p.data ++ ':' :: ['s', 't', 'a', 'r', 't'] := by
  rw [startKeyOf, data_append]

theorem hashKey_data (p : String) :
    (hashKeyOf p).data =
      (p.data ++ [':', 'g', 'o', 'v', 'e', 'r', 'n', 'o', 'r']) ++
        ':' :: ['h', 'a', 's', 'h'] := by
  rw [hashKeyOf, data_append, List.append_assoc]; rfl

theorem valueKey_data (p d : String) :
    (valueKeyOf p d).data =
      (p.data ++ [':', 'g', 'o', 'v', 'e', 'r', 'n', 'o', 'r',
        ':', 'v', 'a', 'l', 'u', 'e']) ++ ':' :: d.data := by
  rw [valueKeyOf, data_append, data_append, List.append_assoc, List.append_assoc]
  rfl

theorem hexChar_ne_colon {c : Char} (h : isHexChar c = true) : c ≠ ':' := by
  intro he; subst he; exact absurd h (by decide)

/-- `{p1}:start = {p2}:start` forces equal prefixes. -/
theorem startKey_inj {p1 p2 : String} (h : startKeyOf p1 = startKeyOf p2) :
    p1 = p2 := by
  have hd := congrArg String.data h
  rw [startKey_data, startKey_data] at hd
  exact data_inj (List.append_cancel_right hd)

/-- `{p1}:governor:hash = {p2}:governor:hash` forces equal prefixes. -/
theorem hashKey_inj {p1 p2 : String} (h : hashKeyOf p1 = hashKeyOf p2) :
    p1 = p2 := by
  have hd := congrArg String.data h
  rw [hashKey_data, hashKey_data] at hd
  exact data_inj (List.append_cancel_right (List.append_cancel_right hd))

/-- Sentinel keys with a common prefix are injective in the digest. -/
theorem valueKey_injd {p d1 d2 : String}
    (h : valueKeyOf p d1 = valueKeyOf p d2) : d1 = d2 := by
  have hd := congrArg String.data h
  rw [valueKey_data, valueKey_data] at hd
  exact data_inj (List.cons_injective (List.append_cancel_left hd))

/-- Equal sentinel keys with colon-free digests force equal prefixes and
equal digests. -/
theorem valueKey_inj {p1 p2 d1 d2 : String}
    (h1 : ∀ c ∈ d1.data, c ≠ ':') (h2 : ∀ c ∈ d2.data, c ≠ ':')
    (h : valueKeyOf p1 d1 = valueKeyOf p2 d2) : p1 = p2 ∧ d1 = d2 := by
  have hd := congrArg String.data h
  rw [valueKey_data, valueKey_data] at hd
  have hsuf : d1.data = d2.data := by
    have := congrArg afterLastColon hd
    rwa [afterLastColon_spec _ _ h1, afterLastColon_spec _ _ h2] at this
  have hp : p1 = p2 := by
    rw [hsuf] at hd
    exact data_inj (List.append_cancel_right (List.append_cancel_right hd))
  exact ⟨hp, data_inj hsuf⟩

/-- A start key is never a hash key, under any pair of prefixes. -/
theorem startKey_ne_hashKey (p1 p2 : String) :
    startKeyOf p1 ≠ hashKeyOf p2 := by
  intro h
  have hd := congrArg String.data h
  rw [startKey_data, hashKey_data] at hd
  have := congrArg afterLastColon hd
  rw [afterLastColon_spec _ _ (by decide), afterLastColon_spec _ _ (by decide)]
    at this
  exact absurd this (by decide)

/-- A start key is never a sentinel key of a hex digest. -/
theorem startKey_ne_valueKey (p1 p2 : String) {d : String}
    (hd : ∀ c ∈ d.data, isHexChar c = true) :
    startKeyOf p1 ≠ valueKeyOf p2 d := by
  intro h
  have he := congrArg String.data h
  rw [startKey_data, valueKey_data] at he
  have hs := congrArg afterLastColon he
  rw [afterLastColon_spec _ _ (by decide),
    afterLastColon_spec _ _ (fun c hc => hexChar_ne_colon (hd c hc))] at hs
  have : isHexChar 's' = true := hd 's' (by rw [← hs]; simp)
  exact absurd this (by decide)

/-- A hash key is never a sentinel key of a hex digest. -/
theorem hashKey_ne_valueKey (p1 p2 : String) {d : String}
    (hd : ∀ c ∈ d.data, isHexChar c = true) :
    hashKeyOf p1 ≠ valueKeyOf p2 d := by
  intro h
  have he := congrArg String.data h
  rw [hashKey_data, valueKey_data] at he
  have hs := congrArg afterLastColon he
  rw [afterLastColon_spec _ _ (by decide),
    afterLastColon_spec _ _ (fun c hc => hexChar_ne_colon (hd c hc))] at hs
  have : isHexChar 'h' = true := hd 'h' (by rw [← hs]; simp)
  exact absurd this (by decide)

/-! ### Hex shape of `key_hash` digests -/

theorem digitChar_hex : ∀ m, m < 16 → isHexChar (Nat.digitChar m) = true := by
  decide

theorem toDigitsCore_hex : ∀ (fuel n : Nat) (ds : List Char),
    (∀ c ∈ ds, isHexChar c = true) →
    ∀ c ∈ Nat.toDigitsCore 16 fuel n ds, isHexChar c = true := by
  intro fuel
  induction fuel with
  | zero => intro n ds hds c hc; exact hds c hc
  | succ fuel ih =>
    intro n ds hds c hc
    rw [Nat.toDigitsCore] at hc
    by_cases h : n / 16 = 0
    · simp only [h, if_pos rfl] at hc
      rcases List.mem_cons.mp hc with h1 | h1
      · subst h1; exact digitChar_hex _ (Nat.mod_lt _ (by norm_num))
      · exact hds c h1
    · simp only [if_neg h] at hc
      refine ih (n / 16) _ ?_ c hc
      intro c' hc'
      rcases List.mem_cons.mp hc' with h1 | h1
      · subst h1; exact digitChar_hex _ (Nat.mod_lt _ (by norm_num))
      · exact hds c' h1

/-- Every character of a `key_hash` digest is a lowercase hex digit,
matching the `format!("{:x}", _)` in `RedisStateStore::key_hash`. -/
theorem key_hash_hex (h : Nat) : ∀ c ∈ (key_hash h).data, isHexChar c = true := by
  intro c hc
  exact toDigitsCore_hex _ _ [] (by simp) c hc

/-- C9. Namespace isolation: for distinct prefixes `p1 ≠ p2`, every key the
governor reads or mutates under `p1` — the `{p1}:start` epoch key, the
`{p1}:governor:hash` state hash, and any `{p1}:governor:value:{digest}` CAS
sentinel — differs from every key it reads or mutates under `p2`. Digests
here are `key_hash` outputs, i.e. lowercase hex renderings of the SipHash
finish, exactly as `measure_and_replace` composes them. -/
theorem namespace_isolation (p1 p2 : String) (h1 h2 : Nat) (hp : p1 ≠ p2) :
    ∀ k1 ∈ governorKeys p1 (key_hash h1), ∀ k2 ∈ governorKeys p2 (key_hash h2),
      k1 ≠ k2 := by
  intro k1 hk1 k2 hk2
  simp only [governorKeys, List.mem_cons, List.mem_singleton,
    List.not_mem_nil, or_false] at hk1 hk2
  rcases hk1 with rfl | rfl | rfl <;> rcases hk2 with rfl | rfl | rfl
  · exact fun h => hp (startKey_inj h)
  · exact startKey_ne_hashKey p1 p2
  · exact startKey_ne_valueKey p1 p2 (key_hash_hex h2)
  · exact fun h => (startKey_ne_hashKey p2 p1) h.symm
  · exact fun h => hp (hashKey_inj h)
  · exact hashKey_ne_valueKey p1 p2 (key_hash_hex h2)
  · exact fun h => (startKey_ne_valueKey p2 p1 (key_hash_hex h1)) h.symm
  · exact fun h => (hashKey_ne_valueKey p2 p1 (key_hash_hex h1)) h.symm
  · intro h
    exact hp (valueKey_inj
      (fun c hc => hexChar_ne_colon (key_hash_hex h1 c hc))
      (fun c hc => hexChar_ne_colon (key_hash_hex h2 c hc)) h).1

/-- Witness for C9 at concrete prefixes `a`, `b` and digest hash `0`. -/
theorem namespace_isolation_witness :
    startKeyOf "a" ≠ startKeyOf "b" ∧ valueKeyOf "a" (key_hash 0) ≠ hashKeyOf "b" :=
  ⟨namespace_isolation "a" "b" 0 0 (by decide) (startKeyOf "a") (by simp [governorKeys])
      (startKeyOf "b") (by simp [governorKeys]),
    namespace_isolation "a" "b" 0 0 (by decide) (valueKeyOf "a" (key_hash 0))
      (by simp [governorKeys]) (hashKeyOf "b") (by simp [governorKeys])⟩

/-! ### Claims about the remote clock and instants -/

/-- C6. For a Redis `TIME` reply `(secs, micros)` whose nanosecond total
fits in a u64 (always true until the year 2554), `now()` returns the
instant whose underlying u64 value is `secs * 10^9 + micros * 10^3`. -/
theorem now_formula (secs micros : Nat)
    (h : secs * 1000000000 + micros * 1000 < u64Size) :
    (RedisClock.now secs micros).nanos.val = secs * 1000000000 + micros * 1000 := by
  have hs : secs < u64Size := by
    by_contra hc
    push_neg at hc
    have : u64Size ≤ secs * 1000000000 := le_trans hc (Nat.le_mul_of_pos_right _ (by norm_num))
    omega
  have hm : micros < u64Size := by
    by_contra hc
    push_neg at hc
    have : u64Size ≤ micros * 1000 := le_trans hc (Nat.le_mul_of_pos_right _ (by norm_num))
    omega
  simp only [RedisClock.now, now_nanos, Nat.mod_eq_of_lt hs, Nat.mod_eq_of_lt hm]
  exact Nat.mod_eq_of_lt h

/-- Witness for C6 at the `TIME` reply `(3, 5)`. -/
theorem now_formula_witness :
    (RedisClock.now 3 5).nanos.val = 3 * 1000000000 + 5 * 1000 :=
  now_formula 3 5 (by norm_num [u64Size])

/-- C7. `RedisInstant` arithmetic is pure u64 value arithmetic: `add`
shifts the underlying count (u64 addition, i.e. plain addition whenever it
does not wrap), `duration_since` is saturating subtraction — zero whenever
the "earlier" instant is not earlier, never negative since it lands in a
`Nat`-valued `Nanos` — and `saturating_sub` floors at zero. -/
theorem instant_arith (a b : RedisInstant) (d : Nanos) :
    ((a.add d).nanos.val = (a.nanos.val + d.val) % u64Size) ∧
    (a.nanos.val + d.val < u64Size → (a.add d).nanos.val = a.nanos.val + d.val) ∧
    ((a.duration_since b).val = a.nanos.val - b.nanos.val) ∧
    (a.nanos.val ≤ b.nanos.val → (a.duration_since b).val = 0) ∧
    ((a.saturating_sub d).nanos.val = a.nanos.val - d.val) := by
  refine ⟨rfl, fun h => ?_, rfl, fun h => ?_, rfl⟩
  · simp only [RedisInstant.add, Nanos.add]
    exact Nat.mod_eq_of_lt h
  · simp only [RedisInstant.duration_since, Nanos.saturating_sub]
    omega

/-- Witness for C7 at instants `10`, `25` and duration `7`. -/
theorem instant_arith_witness :
    ((RedisInstant.mk ⟨10⟩).add ⟨7⟩).nanos.val = 10 + 7 ∧
    ((RedisInstant.mk ⟨10⟩).duration_since ⟨⟨25⟩⟩).val = 0 := by
  have h := instant_arith ⟨⟨10⟩⟩ ⟨⟨25⟩⟩ ⟨7⟩
  exact ⟨h.2.1 (by norm_num [u64Size]), h.2.2.2.1 (by norm_num)⟩

/-! ### Claim C8: what `wipe` actually deletes

`GovernorInstance::wipe` calls `reset_start` — whose body in `clock.rs` is
empty — and then `RedisStateStore::wipe`, which only issues
`DEL {p}:governor:hash`. The `{p}:start` key survives, so a later `start()`
reads the old epoch instead of electing a fresh one. -/

/-- Counterexample to C8: on a keyspace holding epoch `42` at `{p}:start`
and a populated governor hash, `instance.wipe()` leaves `{p}:start` intact
(it still holds `42`), contradicting the claim that wipe deletes it. -/
theorem wipe_keeps_start_cex :
    (GovernorInstance.wipe "p"
        ((RedisState.empty.set (startKeyOf "p") 42).hset (hashKeyOf "p") "ab" 7)).get
      (startKeyOf "p") = some 42 ∧
    ¬ (GovernorInstance.wipe "p"
        ((RedisState.empty.set (startKeyOf "p") 42).hset (hashKeyOf "p") "ab" 7)).get
      (startKeyOf "p") = none := by
  constructor
  · decide
  · decide

/-- C8 (amended): `instance.wipe()` deletes only the governor hash
`{p}:governor:hash`; `reset_start()` is a no-op, so `{p}:start` is left
unchanged, and a subsequent `start()` call returns the previously stored
epoch (performing no write) instead of electing a fresh one. -/
theorem wipe_amended (p : String) (s : RedisState) :
    (∀ f, (GovernorInstance.wipe p s).hget (hashKeyOf p) f = none) ∧
    (GovernorInstance.wipe p s).get (startKeyOf p) = s.get (startKeyOf p) ∧
    (∀ v fuel sched, s.get (startKeyOf p) = some v →
      start_loop p (fuel + 1) sched (GovernorInstance.wipe p s) =
        some (v, GovernorInstance.wipe p s, [])) := by
  refine ⟨fun f => ?_, ?_, fun v fuel sched hv => ?_⟩
  · simp [GovernorInstance.wipe, RedisStateStore.wipe, RedisClock.reset_start,
      RedisState.del, RedisState.hget]
  · simp [GovernorInstance.wipe, RedisStateStore.wipe, RedisClock.reset_start,
      RedisState.del, RedisState.get, startKey_ne_hashKey p p]
  · have hg : (GovernorInstance.wipe p s).get (startKeyOf p) = some v := by
      simp [GovernorInstance.wipe, RedisStateStore.wipe, RedisClock.reset_start,
        RedisState.del, RedisState.get, startKey_ne_hashKey p p]
      simpa [RedisState.get] using hv
    rw [start_loop, hg]

/-- Witness for C8 (amended) on a concrete keyspace holding epoch `42`. -/
theorem wipe_amended_witness :
    (GovernorInstance.wipe "p" (RedisState.empty.set (startKeyOf "p") 42)).get
      (startKeyOf "p") = RedisState.get (RedisState.empty.set (startKeyOf "p") 42)
        (startKeyOf "p") ∧
    start_loop "p" 1 [] (GovernorInstance.wipe "p"
        (RedisState.empty.set (startKeyOf "p") 42)) =
      some (42, GovernorInstance.wipe "p"
        (RedisState.empty.set (startKeyOf "p") 42), []) :=
  ⟨(wipe_amended "p" (RedisState.empty.set (startKeyOf "p") 42)).2.1,
    (wipe_amended "p" (RedisState.empty.set (startKeyOf "p") 42)).2.2 42 0 []
      (by decide)⟩

/-! ### Structure of `measure_and_replace` runs -/

/-- Reduction of the CAS loop when no other connection interferes: the
first `EXEC` commits (the sentinel is untouched), so the loop finishes in
one iteration, exactly as `measure_and_replace` does on an uncontended key. -/
theorem mar_loop_nil {E T : Type} (p d : String)
    (f : Option Nat → Except E (T × Nat)) (fuel : Nat) (s : RedisState) :
    measure_and_replace_loop p d f (fuel + 1) [] s =
      match f (s.hget (hashKeyOf p) d) with
      | .error e => some (.error e, s, [])
      | .ok (result, n) =>
        some (.ok result,
          (s.set (valueKeyOf p d) n).hset (hashKeyOf p) d n,
          [RedisOp.set (valueKeyOf p d) n, RedisOp.hset (hashKeyOf p) d n]) := by
  rw [measure_and_replace_loop]
  cases f (s.hget (hashKeyOf p) d) with
  | error e => rfl
  | ok v => cases v; rfl

/-- Any completed run of the CAS loop either propagates a rejection with no
writes of its own, or commits exactly the `SET sentinel` / `HSET hash field`
pipeline of one successful `EXEC`, ending in the committed state. -/
theorem mar_loop_shape {E T : Type} (p d : String)
    (f : Option Nat → Except E (T × Nat)) :
    ∀ (fuel : Nat) (sched : List (List RedisOp)) (s : RedisState)
      (out : Except E T) (s' : RedisState) (ws : List RedisOp),
      measure_and_replace_loop p d f fuel sched s = some (out, s', ws) →
      (∃ e, out = .error e ∧ ws = []) ∨
      (∃ (t : T) (n : Nat) (sMid : RedisState), out = .ok t ∧
        ws = [RedisOp.set (valueKeyOf p d) n, RedisOp.hset (hashKeyOf p) d n] ∧
        s' = (sMid.set (valueKeyOf p d) n).hset (hashKeyOf p) d n) := by
  intro fuel
  induction fuel with
  | zero => intro sched s out s' ws h; exact absurd h (by simp [measure_and_replace_loop])
  | succ fuel ih =>
    intro sched s out s' ws h
    rw [measure_and_replace_loop] at h
    cases hf : f (s.hget (hashKeyOf p) d) with
    | error e =>
      rw [hf] at h
      simp only [Option.some.injEq, Prod.mk.injEq] at h
      exact Or.inl ⟨e, h.1.symm, h.2.2.symm⟩
    | ok v =>
      obtain ⟨t, n⟩ := v
      rw [hf] at h
      simp only at h
      split at h
      · exact ih sched.tail _ out s' ws h
      · simp only [Option.some.injEq, Prod.mk.injEq] at h
        exact Or.inr ⟨t, n, applyOps s (sched.headD []),
          h.1.symm, h.2.2.symm, h.2.1.symm⟩

theorem countFieldWrites_nil (hk d : String) : countFieldWrites hk d [] = 0 := rfl

theorem countFieldWrites_commit (p d : String) (n : Nat) :
    countFieldWrites (hashKeyOf p) d
      [RedisOp.set (valueKeyOf p d) n, RedisOp.hset (hashKeyOf p) d n] = 1 := by
  simp [countFieldWrites, List.countP_cons, List.countP_nil]

/-- Per-invocation write accounting: a completed `measure_and_replace` run
commits at most one `EXEC`; it writes the hash field exactly once iff the
decision was an acceptance, and writes nothing at all on a rejection. -/
theorem mar_writes_spec {E T : Type} (p d : String)
    (f : Option Nat → Except E (T × Nat)) (fuel : Nat)
    (sched : List (List RedisOp)) (s : RedisState)
    (out : Except E T) (s' : RedisState) (ws : List RedisOp)
    (h : measure_and_replace_loop p d f fuel sched s = some (out, s', ws)) :
    countFieldWrites (hashKeyOf p) d ws ≤ 1 ∧
    (out.isOk = true ↔ countFieldWrites (hashKeyOf p) d ws = 1) ∧
    (out.isOk = false → ws = []) := by
  rcases mar_loop_shape p d f fuel sched s out s' ws h with
    ⟨e, rfl, rfl⟩ | ⟨t, n, sMid, rfl, rfl, rfl⟩
  · simp [countFieldWrites_nil, Except.isOk, Except.toBool]
  · simp [countFieldWrites_commit, Except.isOk, Except.toBool]

/-- Conservation across a sequence of calls for the same digest: the total
number of hash-field writes equals the number of accepted outcomes. -/
theorem runCalls_conservation {E T : Type} (p d : String) :
    ∀ (calls : List (CallSpec E T)) (s : RedisState)
      (outs : List (Except E T)) (s' : RedisState) (ws : List RedisOp),
      runCalls p d calls s = some (outs, s', ws) →
      countFieldWrites (hashKeyOf p) d ws = outs.countP Except.isOk := by
  intro calls
  induction calls with
  | nil =>
    intro s outs s' ws h
    simp only [runCalls, Option.some.injEq, Prod.mk.injEq] at h
    rw [← h.1, ← h.2.2]
    rfl
  | cons c cs ih =>
    intro s outs s' ws h
    rw [runCalls] at h
    cases hm : measure_and_replace_loop p d c.f c.fuel c.sched s with
    | none => rw [hm] at h; exact absurd h (by simp)
    | some r =>
      obtain ⟨out1, s1, ws1⟩ := r
      rw [hm] at h
      dsimp only at h
      cases hr : runCalls p d cs s1 with
      | none => rw [hr] at h; exact absurd h (by simp)
      | some r2 =>
        obtain ⟨outs2, s2, ws2⟩ := r2
        rw [hr] at h
        simp only [Option.some.injEq, Prod.mk.injEq] at h
        obtain ⟨houts, hs, hws⟩ := h
        subst houts hws
        rw [countFieldWrites, List.countP_append, List.countP_cons]
        have hspec := mar_writes_spec p d c.f c.fuel c.sched s out1 s1 ws1 hm
        have hih := ih s1 outs2 s2 ws2 hr
        cases hok : out1.isOk with
        | true =>
          have h1 : countFieldWrites (hashKeyOf p) d ws1 = 1 := hspec.2.1.mp hok
          rw [countFieldWrites] at h1 hih
          rw [h1, hih]
          simp [Nat.add_comm]
        | false =>
          have h1 : ws1 = [] := hspec.2.2 hok
          subst h1
          rw [countFieldWrites] at hih
          rw [hih]
          simp

/-- C1. When the decision function, applied to the previously stored value
of field `digest(K)` in `{p}:governor:hash`, accepts with `(result, new)`,
`measure_and_replace` returns `Ok(result)` and — in the single atomic
`MULTI/EXEC` pipeline that commits because the sentinel was untouched since
the `WATCH` — sets both the sentinel `{p}:governor:value:{digest(K)}` and
the hash field `digest(K)` to `new`. -/
theorem mar_accept_commits {K E T : Type} (p : String) (sip : K → Nat) (key : K)
    (f : Option Nat → Except E (T × Nat)) (fuel : Nat) (s : RedisState)
    (result : T) (new : Nat)
    (h : f (s.hget (hashKeyOf p) (key_hash (sip key))) = .ok (result, new)) :
    measure_and_replace p sip key f (fuel + 1) [] s =
      some (.ok result,
        (s.set (valueKeyOf p (key_hash (sip key))) new).hset (hashKeyOf p)
          (key_hash (sip key)) new,
        [RedisOp.set (valueKeyOf p (key_hash (sip key))) new,
         RedisOp.hset (hashKeyOf p) (key_hash (sip key)) new]) ∧
    ((s.set (valueKeyOf p (key_hash (sip key))) new).hset (hashKeyOf p)
        (key_hash (sip key)) new).get (valueKeyOf p (key_hash (sip key))) =
      some new ∧
    ((s.set (valueKeyOf p (key_hash (sip key))) new).hset (hashKeyOf p)
        (key_hash (sip key)) new).hget (hashKeyOf p) (key_hash (sip key)) =
      some new := by
  refine ⟨?_, ?_, ?_⟩
  · rw [measure_and_replace, mar_loop_nil, h]
  · simp [RedisState.get, RedisState.set, RedisState.hset]
  · simp [RedisState.hget, RedisState.set, RedisState.hset]

/-- Witness for C1: an accepting decision on the empty keyspace commits
sentinel and hash field together. -/
theorem mar_accept_commits_witness :
    measure_and_replace "p" (fun _ : Unit => 0) ()
        (fun _ => (Except.ok (3, 7) : Except Unit (Nat × Nat))) 1 []
        RedisState.empty =
      some (Except.ok 3,
        (RedisState.empty.set (valueKeyOf "p" (key_hash 0)) 7).hset
          (hashKeyOf "p") (key_hash 0) 7,
        [RedisOp.set (valueKeyOf "p" (key_hash 0)) 7,
         RedisOp.hset (hashKeyOf "p") (key_hash 0) 7]) :=
  (mar_accept_commits "p" (fun _ => 0) ()
    (fun _ => (Except.ok (3, 7) : Except Unit (Nat × Nat))) 0 RedisState.empty
    3 7 rfl).1

/-- C2. When the decision function rejects with `Err(e)`,
`measure_and_replace` immediately returns that very `Err(e)`: the
invocation performs no write of its own (under any interference schedule),
and on an uncontended connection the keyspace is left exactly unchanged. -/
theorem mar_reject_propagates {K E T : Type} (p : String) (sip : K → Nat)
    (key : K) (f : Option Nat → Except E (T × Nat)) (fuel : Nat)
    (sched : List (List RedisOp)) (s : RedisState) (e : E)
    (h : f (s.hget (hashKeyOf p) (key_hash (sip key))) = .error e) :
    measure_and_replace p sip key f (fuel + 1) sched s =
      some (.error e, applyOps s (sched.headD []), []) ∧
    measure_and_replace p sip key f (fuel + 1) [] s = some (.error e, s, []) := by
  constructor
  · rw [measure_and_replace, measure_and_replace_loop, h]
  · rw [measure_and_replace, mar_loop_nil, h]

/-- Witness for C2: a rejecting decision on the empty keyspace returns the
error untouched and leaves the keyspace unchanged. -/
theorem mar_reject_propagates_witness :
    measure_and_replace "p" (fun _ : Unit => 0) ()
        (fun _ => (Except.error 9 : Except Nat (Nat × Nat))) 1 []
        RedisState.empty = some (Except.error 9, RedisState.empty, []) :=
  (mar_reject_propagates "p" (fun _ => 0) ()
    (fun _ => (Except.error 9 : Except Nat (Nat × Nat))) 0 [] RedisState.empty
    9 rfl).2

/-- C3. Every completed `measure_and_replace` invocation commits at most
one successful `EXEC` — the loop exits exactly on a successful `EXEC`
(one hash-field write) or on a rejection (no writes, conflicts only retry)
— and across a sequence of N calls for the same digest of which M were
accepted, exactly M writes to the hash field occur. -/
theorem mar_at_most_one_exec :
    (∀ (E T : Type) (p d : String) (f : Option Nat → Except E (T × Nat))
        (fuel : Nat) (sched : List (List RedisOp)) (s : RedisState)
        (out : Except E T) (s' : RedisState) (ws : List RedisOp),
      measure_and_replace_loop p d f fuel sched s = some (out, s', ws) →
      countFieldWrites (hashKeyOf p) d ws ≤ 1 ∧
      (out.isOk = true ↔ countFieldWrites (hashKeyOf p) d ws = 1) ∧
      (out.isOk = false → ws = [])) ∧
    (∀ (E T : Type) (p d : String) (calls : List (CallSpec E T))
        (s : RedisState) (outs : List (Except E T)) (s' : RedisState)
        (ws : List RedisOp),
      runCalls p d calls s = some (outs, s', ws) →
      countFieldWrites (hashKeyOf p) d ws = outs.countP Except.isOk) :=
  ⟨fun _ _ p d f fuel sched s out s' ws h =>
      mar_writes_spec p d f fuel sched s out s' ws h,
    fun _ _ p d calls s outs s' ws h =>
      runCalls_conservation p d calls s outs s' ws h⟩

/-- Witness for C3: one accepted call then one rejected call for the same
digest produce exactly one hash-field write. -/
theorem mar_at_most_one_exec_witness :
    countFieldWrites (hashKeyOf "p") "0"
        [RedisOp.set (valueKeyOf "p" "0") 5, RedisOp.hset (hashKeyOf "p") "0" 5] =
      List.countP Except.isOk
        [(Except.ok 1 : Except Unit Nat), Except.error ()] :=
  mar_at_most_one_exec.2 Unit Nat "p" "0"
    [⟨fun _ => Except.ok (1, 5), 1, []⟩, ⟨fun _ => Except.error (), 1, []⟩]
    RedisState.empty
    [(Except.ok 1 : Except Unit Nat), Except.error ()]
    ((RedisState.empty.set (valueKeyOf "p" "0") 5).hset (hashKeyOf "p") "0" 5)
    [RedisOp.set (valueKeyOf "p" "0") 5, RedisOp.hset (hashKeyOf "p") "0" 5]
    rfl

/-- C10. Per-key frame: an uncontended `measure_and_replace(K, f)` writes
only the sentinel and hash field of `digest(K)`; for any other digest the
hash field and sentinel are unchanged, and `{p}:start` is unchanged. -/
theorem mar_frame {K E T : Type} (p : String) (sip : K → Nat) (key key' : K)
    (f : Option Nat → Except E (T × Nat)) (fuel : Nat) (s : RedisState)
    (out : Except E T) (s' : RedisState) (ws : List RedisOp)
    (hd : key_hash (sip key') ≠ key_hash (sip key))
    (h : measure_and_replace p sip key f fuel [] s = some (out, s', ws)) :
    (∀ op ∈ ws,
      (∃ n, op = RedisOp.set (valueKeyOf p (key_hash (sip key))) n) ∨
      (∃ n, op = RedisOp.hset (hashKeyOf p) (key_hash (sip key)) n)) ∧
    s'.get (startKeyOf p) = s.get (startKeyOf p) ∧
    s'.hget (hashKeyOf p) (key_hash (sip key')) =
      s.hget (hashKeyOf p) (key_hash (sip key')) ∧
    s'.get (valueKeyOf p (key_hash (sip key'))) =
      s.get (valueKeyOf p (key_hash (sip key'))) := by
  cases fuel with
  | zero => exact absurd h (by simp [measure_and_replace, measure_and_replace_loop])
  | succ fuel =>
    rw [measure_and_replace, mar_loop_nil] at h
    cases hf : f (s.hget (hashKeyOf p) (key_hash (sip key))) with
    | error e =>
      rw [hf] at h
      simp only [Option.some.injEq, Prod.mk.injEq] at h
      rw [← h.2.1, ← h.2.2]
      simp
    | ok v =>
      obtain ⟨t, n⟩ := v
      rw [hf] at h
      simp only [Option.some.injEq, Prod.mk.injEq] at h
      rw [← h.2.1, ← h.2.2]
      refine ⟨?_, ?_, ?_, ?_⟩
      · intro op hop
        rcases List.mem_cons.mp hop with rfl | hop
        · exact Or.inl ⟨n, rfl⟩
        · rcases List.mem_cons.mp hop with rfl | hop
          · exact Or.inr ⟨n, rfl⟩
          · exact absurd hop (List.not_mem_nil _)
      · simp [RedisState.get, RedisState.set, RedisState.hset,
          startKey_ne_valueKey p p (key_hash_hex (sip key))]
      · simp [RedisState.hget, RedisState.set, RedisState.hset, hd]
      · have hne : valueKeyOf p (key_hash (sip key')) ≠
            valueKeyOf p (key_hash (sip key)) :=
          fun he => hd (valueKey_injd he)
        simp [RedisState.get, RedisState.set, RedisState.hset, hne]

/-- Witness for C10 at two keys with digests `1` and `0`: the accepted
write for digest `0` leaves the other key's hash field unchanged. -/
theorem mar_frame_witness :
    ((RedisState.empty.set (valueKeyOf "p" (key_hash 0)) 7).hset
        (hashKeyOf "p") (key_hash 0) 7).hget (hashKeyOf "p") (key_hash 1) =
      RedisState.empty.hget (hashKeyOf "p") (key_hash 1) :=
  (mar_frame "p" (fun b : Bool => if b then 1 else 0) false true
    (fun _ => (Except.ok (3, 7) : Except Unit (Nat × Nat))) 1
    RedisState.empty (Except.ok 3)
    ((RedisState.empty.set (valueKeyOf "p" (key_hash 0)) 7).hset
      (hashKeyOf "p") (key_hash 0) 7)
    [RedisOp.set (valueKeyOf "p" (key_hash 0)) 7,
     RedisOp.hset (hashKeyOf "p") (key_hash 0) 7]
    (by decide) rfl).2.2.1

/-! ### Claim C4: hash/sentinel coherence

A committed `EXEC` writes sentinel and hash field together, and later
commits keep them equal. But `wipe` deletes the whole hash *outside* any
`MULTI/EXEC` while intentionally leaving the sentinels (see
`RedisStateStore::wipe`), so after a wipe an observer sees a populated
sentinel with an empty hash field: coherence as claimed fails once a wipe
occurs after the `EXEC`. -/

/-- Counterexample to C4 as stated: starting from the empty keyspace, a
committed `EXEC` for digest `ab` (value 5) followed by a `wipe` — both
operations of this crate — leaves an observation point that is after the
`EXEC` yet has sentinel `some 5` while the hash field is `none`; the hash
field was destroyed outside any `MULTI/EXEC` without a sentinel update. -/
theorem coherence_cex :
    (applyEvents "p" RedisState.empty
        [GovEvent.commit "ab" 5, GovEvent.wipeEv]).get (valueKeyOf "p" "ab") =
      some 5 ∧
    (applyEvents "p" RedisState.empty
        [GovEvent.commit "ab" 5, GovEvent.wipeEv]).hget (hashKeyOf "p") "ab" =
      none ∧
    ¬ coherentAt "p" "ab"
      (applyEvents "p" RedisState.empty
        [GovEvent.commit "ab" 5, GovEvent.wipeEv]) := by
  refine ⟨by decide, by decide, ?_⟩
  unfold coherentAt
  decide

theorem coherence_commit (p d : String) (v : Nat) (s : RedisState) :
    coherentAt p d (GovEvent.apply p s (GovEvent.commit d v)) := by
  simp [coherentAt, GovEvent.apply, RedisState.get, RedisState.hget,
    RedisState.set, RedisState.hset]

theorem coherence_preserved (p d : String) (s : RedisState)
    (hc : coherentAt p d s) (d' : String) (v' : Nat) :
    coherentAt p d (GovEvent.apply p s (GovEvent.commit d' v')) := by
  by_cases hdd : d' = d
  · subst hdd; exact coherence_commit p d' v' s
  · have hvk : valueKeyOf p d ≠ valueKeyOf p d' :=
      fun he => hdd (valueKey_injd he).symm
    have hd2 : d ≠ d' := fun he => hdd he.symm
    simpa [coherentAt, GovEvent.apply, RedisState.get, RedisState.hget,
      RedisState.set, RedisState.hset, hvk, hd2] using hc

theorem coherence_events (p d : String) :
    ∀ (t : List GovEvent) (s : RedisState), coherentAt p d s →
      (∀ e ∈ t, e ≠ GovEvent.wipeEv) →
      coherentAt p d (applyEvents p s t) := by
  intro t
  induction t with
  | nil => intro s hc _; exact hc
  | cons e t' ih =>
    intro s hc ht
    cases e with
    | wipeEv => exact absurd rfl (ht _ (by simp))
    | commit d' v' =>
      exact ih (GovEvent.apply p s (GovEvent.commit d' v'))
        (coherence_preserved p d s hc d' v')
        (fun e he => ht e (by simp [he]))

/-- C4 (amended). Immediately after an `EXEC` committed by
`measure_and_replace` the sentinel `{p}:governor:value:{d}` equals the hash
field `d`, and coherence persists at every later observation point as long
as only `measure_and_replace` commits (for any digests) occur — the commits
update the pair only together inside one `MULTI/EXEC`. It does not survive
a `wipe()`, which deletes the hash alone, outside any transaction. -/
theorem coherence_amended (p d : String) (v : Nat) (s : RedisState)
    (t : List GovEvent) (ht : ∀ e ∈ t, e ≠ GovEvent.wipeEv) :
    coherentAt p d
      (applyEvents p (GovEvent.apply p s (GovEvent.commit d v)) t) :=
  coherence_events p d t _ (coherence_commit p d v s) ht

/-- Witness for C4 (amended): coherence for digest `ab` survives a later
commit for digest `cd`. -/
theorem coherence_amended_witness :
    coherentAt "p" "ab"
      (applyEvents "p"
        (GovEvent.apply "p" RedisState.empty (GovEvent.commit "ab" 5))
        [GovEvent.commit "cd" 9]) :=
  coherence_amended "p" "ab" 5 RedisState.empty [GovEvent.commit "cd" 9]
    (by decide)

/-! ### Claim C5: epoch write-once and uniqueness -/

/-- Inductive invariant of the election protocol: an intact WATCH window
certifies the key is still unset (its holder read `nil` and nobody wrote
since), and every finished call returned exactly the key's content. -/
def ElectInv (c : ElectCfg) : Prop :=
  (∀ st ∈ c.procs, st = PState.inWindow true → c.key = none) ∧
  (∀ st ∈ c.procs, ∀ r, st = PState.done r → c.key = some r)

theorem electInv_init (n : Nat) : ElectInv (initCfg n) := by
  constructor
  · intro st hst h
    rfl
  · intro st hst r h
    rw [List.eq_of_mem_replicate hst] at h
    exact absurd h (by simp)

theorem electInv_step {c c' : ElectCfg} (h : ElectStep c c')
    (hinv : ElectInv c) : ElectInv c' := by
  cases h with
  | readSome i v hi hkey =>
    constructor
    · intro st hst hwin
      rcases List.mem_or_eq_of_mem_set hst with hmem | rfl
      · have := hinv.1 st hmem hwin
        rw [hkey] at this
        exact absurd this (by simp)
      · exact absurd hwin (by simp)
    · intro st hst r hdone
      rcases List.mem_or_eq_of_mem_set hst with hmem | rfl
      · exact hinv.2 st hmem r hdone
      · cases hdone
        exact hkey
  | readNone i hi hkey =>
    constructor
    · intro st hst hwin
      rfl
    · intro st hst r hdone
      rcases List.mem_or_eq_of_mem_set hst with hmem | rfl
      · have := hinv.2 st hmem r hdone
        rw [hkey] at this
        exact absurd this (by simp)
      · exact absurd hdone (by simp)
  | execCommit i n hi =>
    have hnone : c.key = none :=
      hinv.1 (PState.inWindow true) (List.get?_mem hi) rfl
    constructor
    · intro st hst hwin
      rcases List.mem_or_eq_of_mem_set hst with hmem | rfl
      · obtain ⟨st0, hst0, hmap⟩ := List.mem_map.mp hmem
        subst hmap
        cases st0 <;> simp_all
      · exact absurd hwin (by simp)
    · intro st hst r hdone
      rcases List.mem_or_eq_of_mem_set hst with hmem | rfl
      · obtain ⟨st0, hst0, hmap⟩ := List.mem_map.mp hmem
        subst hmap
        cases st0 with
        | ready => exact absurd hdone (by simp)
        | inWindow b => exact absurd hdone (by simp)
        | done r0 =>
          simp only [PState.done.injEq] at hdone
          have := hinv.2 (PState.done r0) hst0 r0 rfl
          rw [hnone] at this
          exact absurd this (by simp)
      · cases hdone
        rfl
  | execAbort i hi =>
    constructor
    · intro st hst hwin
      rcases List.mem_or_eq_of_mem_set hst with hmem | rfl
      · exact hinv.1 st hmem hwin
      · exact absurd hwin (by simp)
    · intro st hst r hdone
      rcases List.mem_or_eq_of_mem_set hst with hmem | rfl
      · exact hinv.2 st hmem r hdone
      · exact absurd hdone (by simp)

theorem electInv_reach {c c' : ElectCfg} (h : ElectReach c c')
    (hinv : ElectInv c) : ElectInv c' := by
  induction h with
  | refl => exact hinv
  | tail _ hstep ih => exact electInv_step hstep ih

/-- C5. Epoch write-once and uniqueness. (i) Once `{p}:start` holds `v`,
any later `start()` invocation returns exactly `v`, performs no write, and
leaves the keyspace untouched, whatever interference occurs. (ii) In the
interleaved election protocol, from a fresh prefix with any number of
participants, any reachable configuration has all finished `start()` calls
agreeing on one value, which is exactly the single value stored under
`{p}:start`: concurrent elections never overwrite a committed epoch. -/
theorem epoch_uniqueness :
    (∀ (p : String) (v : Nat) (fuel : Nat) (sched : List (List RedisOp × Nat))
        (s : RedisState), s.get (startKeyOf p) = some v →
      start_loop p (fuel + 1) sched s = some (v, s, [])) ∧
    (∀ (n : Nat) (c : ElectCfg), ElectReach (initCfg n) c →
      ∀ r1 r2 : Nat, PState.done r1 ∈ c.procs → PState.done r2 ∈ c.procs →
        r1 = r2 ∧ c.key = some r1) := by
  constructor
  · intro p v fuel sched s h
    rw [start_loop, h]
  · intro n c hreach r1 r2 h1 h2
    have hinv := electInv_reach hreach (electInv_init n)
    have e1 := hinv.2 (PState.done r1) h1 r1 rfl
    have e2 := hinv.2 (PState.done r2) h2 r2 rfl
    rw [e1] at e2
    exact ⟨Option.some_inj.mp e2, e1⟩

/-- Witness for C5: a stored epoch `42` is returned unchanged by a later
`start()`, and a two-participant election run (one commit of `7`, one
read) ends with both callers returning the single stored value `7`. -/
theorem epoch_uniqueness_witness :
    start_loop "q" 1 [([], 3)] (RedisState.empty.set (startKeyOf "q") 42) =
      some (42, RedisState.empty.set (startKeyOf "q") 42, []) ∧
    (7 : Nat) = 7 := by
  have hkey : (RedisState.empty.set (startKeyOf "q") 42).get (startKeyOf "q") =
      some 42 := by decide
  refine ⟨epoch_uniqueness.1 "q" 42 0 [([], 3)] _ hkey, ?_⟩
  have s1 : ElectStep (initCfg 2) ⟨none, [PState.inWindow true, PState.ready]⟩ :=
    ElectStep.readNone (initCfg 2) 0 (by decide) rfl
  have s2 : ElectStep ⟨none, [PState.inWindow true, PState.ready]⟩
      ⟨some 7, [PState.done 7, PState.ready]⟩ :=
    ElectStep.execCommit ⟨none, [PState.inWindow true, PState.ready]⟩ 0 7
      (by decide)
  have s3 : ElectStep ⟨some 7, [PState.done 7, PState.ready]⟩
      ⟨some 7, [PState.done 7, PState.done 7]⟩ :=
    ElectStep.readSome ⟨some 7, [PState.done 7, PState.ready]⟩ 1 7
      (by decide) rfl
  have hreach : ElectReach (initCfg 2) ⟨some 7, [PState.done 7, PState.done 7]⟩ :=
    Relation.ReflTransGen.tail
      (Relation.ReflTransGen.tail (Relation.ReflTransGen.single s1) s2) s3
  exact (epoch_uniqueness.2 2 ⟨some 7, [PState.done 7, PState.done 7]⟩ hreach
    7 7 (by decide) (by decide)).1
